import Mathlib

/-!
Verification of the version-comparison / diff-highlighting core of
`src/app/app.py` (a Flask application that compares PostgreSQL help files
across versions).

Shallow embedding choices:
  * Python `str` is Lean `String` (logically a list of `Char`); slicing,
    `startswith` and `splitlines` are given explicit executable definitions
    on `String.data`.
  * Python `dict` is an association list `List (key × value)` together with
    operations `dictSet` / `dictGet?` / `dictGetD` / `dictOfList` that mirror
    CPython dict semantics (insertion order preserved, in-place overwrite of
    an existing key, last value wins in a comprehension).
  * The corpus loader `get_help_files` performs file I/O; following §6 of the
    spec it is treated as an external collaborator and passed to
    `compare_versions` as a function argument.
  * `difflib.Differ` is Python standard-library code, not part of `src/`;
    `differ` below models it from the spec (§4.1).
  * The Flask route `compare` is embedded up to its arity check and core
    call; templating/HTTP are out of scope per the spec (§1).
-/

namespace PgHelp

/-! ## Python dict as an association list -/

/-- `d[k] = v` on a Python dict: overwrite in place if `k` is present
(keeping its position), otherwise append at the end. -/
def dictSet {α β : Type} [DecidableEq α] : List (α × β) → α → β → List (α × β)
  | [], k, v => [(k, v)]
  | (k0, v0) :: rest, k, v =>
      if k0 = k then (k, v) :: rest else (k0, v0) :: dictSet rest k v

/-- `d.get(k)`: first (and in a well-formed dict, only) binding of `k`. -/
def dictGet? {α β : Type} [DecidableEq α] : List (α × β) → α → Option β
  | [], _ => none
  | (k0, v0) :: rest, k => if k0 = k then some v0 else dictGet? rest k

/-- `d.get(k, dflt)`. -/
def dictGetD {α β : Type} [DecidableEq α] (d : List (α × β)) (k : α) (dflt : β) : β :=
  (dictGet? d k).getD dflt

/-- `list(d.keys())`. -/
def dictKeys {α β : Type} (d : List (α × β)) : List α := d.map Prod.fst

/-- A Python dict built from a list of key/value pairs (dict comprehension
semantics: first-occurrence position, later value overwrites). -/
def dictOfList {α β : Type} [DecidableEq α] (l : List (α × β)) : List (α × β) :=
  l.foldl (fun d kv => dictSet d kv.1 kv.2) []

/-- First-occurrence deduplication, the key order of a Python dict/set
built by successive insertion. -/
def pyDedup {α : Type} [DecidableEq α] : List α → List α
  | [] => []
  | a :: rest => a :: (pyDedup rest).filter (fun b => b ≠ a)

/-! ## Python string helpers -/

/-- Python `s.startswith(pre)`. -/
def startswith (s pre : String) : Bool := pre.data.isPrefixOf s.data

/-- Python slice `s[n:]` (character based). -/
def strDrop (s : String) (n : Nat) : String := ⟨s.data.drop n⟩

/-- Helper for `splitlines`: `acc` holds the current (reversed) line. -/
def splitlinesAux : List Char → List Char → List String
  | [], acc => if acc.isEmpty then [] else [⟨acc.reverse⟩]
  | c :: rest, acc =>
      if c = '\n' then (⟨acc.reverse⟩ : String) :: splitlinesAux rest []
      else splitlinesAux rest (c :: acc)

/-- Python `s.splitlines()`, restricted to `\n` separators: the corpus texts
use `\n` line separators (spec §3).  A trailing `\n` does not produce a
final empty line, and `"".splitlines() == []`. -/
def splitlines (s : String) : List String := splitlinesAux s.data []

/-- Python `"\n".join(l)`. -/
def joinNL : List String → String
  | [] => ""
  | [s] => s
  | s :: rest => s ++ "\n" ++ joinNL rest

/-! ## Python string ordering (`sorted` on strings) -/

/-- Python string comparison: lexicographic on Unicode code points.  Used to
model `sorted(all_commands)` in `compare_versions` (`app.py` line 85). -/
def leChars : List Char → List Char → Bool
  | [], _ => true
  | _ :: _, [] => false
  | a :: as, b :: bs =>
      if a.toNat < b.toNat then true
      else if a.toNat = b.toNat then leChars as bs
      else false

/-- `s <= t` on Python strings. -/
def strLe (s t : String) : Prop := leChars s.data t.data = true

instance : DecidableRel strLe := fun s t => Bool.decEq (leChars s.data t.data) true

theorem leChars_total : ∀ as bs, leChars as bs = true ∨ leChars bs as = true := by
  intro as
  induction as with
  | nil => intro bs; left; rfl
  | cons a as ih =>
    intro bs
    cases bs with
    | nil => right; rfl
    | cons b bs =>
      simp only [leChars]
      rcases Nat.lt_trichotomy a.toNat b.toNat with h | h | h
      · left
        simp [h]
      · rcases ih bs with h2 | h2
        · left
          simp [h, Nat.lt_irrefl, h2]
        · right
          simp [h, Nat.lt_irrefl, h2]
      · right
        simp [h]

theorem leChars_trans :
    ∀ as bs cs, leChars as bs = true → leChars bs cs = true → leChars as cs = true := by
  intro as
  induction as with
  | nil => intro bs cs _ _; rfl
  | cons a as ih =>
    intro bs cs hab hbc
    cases bs with
    | nil => simp [leChars] at hab
    | cons b bs =>
      cases cs with
      | nil => simp [leChars] at hbc
      | cons c cs =>
        simp only [leChars] at hab hbc ⊢
        split at hab
        · -- a < b
          rename_i h1
          split at hbc
          · rename_i h2
            simp [Nat.lt_trans h1 h2]
          · split at hbc
            · rename_i h2 h3
              simp [h3 ▸ h1]
            · exact absurd hbc (by simp)
        · split at hab
          · -- a = b
            rename_i h1 h2
            split at hbc
            · rename_i h3
              simp [h2 ▸ h3]
            · split at hbc
              · rename_i h3 h4
                have := ih bs cs hab hbc
                simp [h2.trans h4, Nat.lt_irrefl, this]
              · exact absurd hbc (by simp)
          · exact absurd hab (by simp)

theorem leChars_antisymm :
    ∀ as bs, leChars as bs = true → leChars bs as = true → as = bs := by
  intro as
  induction as with
  | nil =>
    intro bs _ hba
    cases bs with
    | nil => rfl
    | cons b bs => simp [leChars] at hba
  | cons a as ih =>
    intro bs hab hba
    cases bs with
    | nil => simp [leChars] at hab
    | cons b bs =>
      simp only [leChars] at hab hba
      split at hab
      · rename_i h1
        rw [if_neg (Nat.lt_asymm h1), if_neg (Nat.ne_of_lt h1).symm] at hba
        exact absurd hba (by simp)
      · split at hab
        · rename_i h1 h2
          rw [if_neg (h2 ▸ Nat.lt_irrefl _), if_pos h2.symm] at hba
          have heq : a = b := Char.ext (UInt32.ext h2)
          rw [heq, ih bs hab hba]
        · exact absurd hab (by simp)

instance : IsTotal String strLe := ⟨fun s t => leChars_total s.data t.data⟩

instance : IsTrans String strLe :=
  ⟨fun s t u => leChars_trans s.data t.data u.data⟩

instance : IsAntisymm String strLe :=
  ⟨fun s t h1 h2 => by
    cases s with
    | mk ds =>
      cases t with
      | mk dt => exact congrArg String.mk (leChars_antisymm ds dt h1 h2)⟩

/-! ## Diff Engine (model of `difflib.Differ`) -/

/-- Modelled from the spec: the Diff Engine of §4.1 is `difflib.Differ` from
the Python standard library, whose code is not under `src/`.  Per §4.1 it is
a longest-common-subsequence-style line matcher.  `lcs` computes a longest
common subsequence of the two line sequences (ties broken deterministically,
as §4.1 allows). -/
def lcsFuel : Nat → List String → List String → List String
  | 0, _, _ => []
  | _ + 1, [], _ => []
  | _ + 1, _ :: _, [] => []
  | fuel + 1, a :: as, b :: bs =>
      if a = b then a :: lcsFuel fuel as bs
      else
        let r1 := lcsFuel fuel (a :: as) bs
        let r2 := lcsFuel fuel as (b :: bs)
        if r1.length < r2.length then r2 else r1

/-- The standard LCS recursion; `lcsFuel` is the same recursion made
structural on a fuel argument, and `xs.length + ys.length` fuel is enough
because every recursive call strictly shrinks that sum. -/
def lcs (xs ys : List String) : List String :=
  lcsFuel (xs.length + ys.length) xs ys

/-- Modelled from the spec: given an already-matched common subsequence,
emit `difflib.Differ`-style lines — `"- "` for lines only in the left
sequence, `"+ "` for lines only in the right sequence, `"  "` for common
lines — deletions before additions within each changed block (§4.1's
`OnlyLeft`/`OnlyRight`/`Equal` ops). -/
def emitOps : List String → List String → List String → List String
  | [], ls, rs =>
      ls.map (fun l => "- " ++ l) ++ rs.map (fun l => "+ " ++ l)
  | c :: cs, ls, rs =>
      (ls.takeWhile (fun l => l ≠ c)).map (fun l => "- " ++ l) ++
      (rs.takeWhile (fun l => l ≠ c)).map (fun l => "+ " ++ l) ++
      ("  " ++ c) :: emitOps cs ((ls.dropWhile (fun l => l ≠ c)).tail)
        ((rs.dropWhile (fun l => l ≠ c)).tail)

/-- Modelled from the spec: `list(difflib.Differ().compare(lines1, lines2))`
(§4.1 Diff Engine), producing the classified line sequence consumed by the
annotation loop of `highlight_diff`. -/
def differ (lines1 lines2 : List String) : List String :=
  emitOps (lcs lines1 lines2) lines1 lines2

/-! ## Annotator (the loop body of `highlight_diff`) -/

/-- `f-string` of `app.py` line 136/137: an unchanged line. -/
def unchangedSpan (text : String) : String :=
  "<span class=\"unchanged\">" ++ text ++ "</span>"

/-- `f-string` of `app.py` line 140: a deleted line. -/
def deletedSpan (text : String) : String :=
  "<span class=\"deleted\" style=\"background-color: #ffeef0;\">" ++ text ++ "</span>"

/-- `f-string` of `app.py` line 144: an added line. -/
def addedSpan (text : String) : String :=
  "<span class=\"added\" style=\"background-color: #e6ffed;\">" ++ text ++ "</span>"

/-- The body of `for line in diff:` in `highlight_diff` (`app.py` 134-145):
dispatch on the `difflib` two-character marker and append the tagged line to
the left and/or right rendered list. -/
def annotateLine (acc : List String × List String) (line : String) :
    List String × List String :=
  if startswith line "  " then
    (acc.1 ++ [unchangedSpan (strDrop line 2)], acc.2 ++ [unchangedSpan (strDrop line 2)])
  else if startswith line "- " then
    (acc.1 ++ [deletedSpan (strDrop line 2)], acc.2)
  else if startswith line "+ " then
    (acc.1, acc.2 ++ [addedSpan (strDrop line 2)])
  else acc

/-- The whole annotation loop: `highlighted_1, highlighted_2` after the
`for line in diff` loop. -/
def annotatePair (diff : List String) : List String × List String :=
  diff.foldl annotateLine ([], [])

/-- One pairwise computation of `highlight_diff` (`app.py` 125-148): split
both texts into lines, diff them, annotate, join with `"\n"` and wrap each
side in a `<pre>` block. -/
def renderPair (text1 text2 : String) : String × String :=
  let lines1 := splitlines text1
  let lines2 := splitlines text2
  let diff := differ lines1 lines2
  let h := annotatePair diff
  ("<pre>" ++ joinNL h.1 ++ "</pre>", "<pre>" ++ joinNL h.2 ++ "</pre>")

/-! ## `highlight_diff` -/

/-- The index pairs visited by the nested loops
`for i in range(len(versions)): for j in range(i + 1, len(versions)):`
(`app.py` 122-123), in visit order. -/
def pairList (n : Nat) : List (Nat × Nat) :=
  (List.range n).flatMap (fun i => ((List.range n).drop (i + 1)).map (fun j => (i, j)))

/-- `highlight_diff` (`app.py` 99-150).  `cmd_versions` is the Python dict
mapping each version to its help text for one command, as an association
list in key-insertion order. -/
def highlight_diff (cmd_versions : List (String × String)) :
    List (String × String) :=
  let versions := dictKeys cmd_versions
  (pairList versions.length).foldl
    (fun highlighted ij =>
      let v1 := versions.getD ij.1 ""
      let v2 := versions.getD ij.2 ""
      let r := renderPair (dictGetD cmd_versions v1 "") (dictGetD cmd_versions v2 "")
      dictSet (dictSet highlighted v1 r.1) v2 r.2)
    []

/-! ## `compare_versions` and the route-level arity check -/

/-- `compare_versions` (`app.py` 59-96).  `get_help_files` is the corpus
loader (file I/O, spec §6), passed explicitly. -/
def compare_versions (get_help_files : String → List (String × String))
    (versions : List String) : List (String × List (String × String)) :=
  let help_files : List (String × List (String × String)) :=
    dictOfList (versions.map (fun v => (v, get_help_files v)))
  let all_commands : List String :=
    pyDedup ((help_files.map Prod.snd).flatMap (fun files => dictKeys files))
  (List.insertionSort strLe all_commands).foldl
    (fun diffs cmd =>
      let cmd_versions : List (String × String) :=
        dictOfList (versions.map
          (fun v => (v, dictGetD (dictGetD help_files v []) cmd "")))
      if versions.tail.any (fun v =>
          dictGetD cmd_versions v "" != dictGetD cmd_versions (versions.headD "") "")
      then dictSet diffs cmd (highlight_diff cmd_versions)
      else diffs)
    []

/-- The `/compare` route handler (`app.py` 42-56) up to its core call:
fewer than two selected versions are rejected with an error message
(HTTP 400), otherwise `compare_versions` runs.  Templating is out of
scope (spec §1). -/
def compare (get_help_files : String → List (String × String))
    (selected_versions : List String) :
    Except String (List (String × List (String × String))) :=
  if selected_versions.length < 2 then
    Except.error "Please select at least two versions for comparison."
  else
    Except.ok (compare_versions get_help_files selected_versions)

/-! ## Derived notions used to state the claims -/

/-- `needle` occurs as a contiguous run inside the second list.  Used to
state the presence/absence of the `background-color` style attribute. -/
def containsSeq (needle : List Char) : List Char → Bool
  | [] => needle.isEmpty
  | c :: rest => needle.isPrefixOf (c :: rest) || containsSeq needle rest

/-- The spec's Line Classification (§3): one of unchanged / added /
deleted. -/
inductive Tag where
  | unchanged
  | deleted
  | added
deriving DecidableEq

/-- Rendering of one classified line, as the annotation loop of
`highlight_diff` produces it. -/
def renderTag : Tag × String → String
  | (Tag.unchanged, s) => unchangedSpan s
  | (Tag.deleted, s) => deletedSpan s
  | (Tag.added, s) => addedSpan s

/-- The classification the annotation loop assigns to a `difflib` line for
the LEFT side: unchanged lines and deleted lines, in order; added lines do
not appear on the left. -/
def leftSel (line : String) : Option (Tag × String) :=
  if startswith line "  " then some (Tag.unchanged, strDrop line 2)
  else if startswith line "- " then some (Tag.deleted, strDrop line 2)
  else none

/-- The classification the annotation loop assigns to a `difflib` line for
the RIGHT side: unchanged lines and added lines, in order; deleted lines do
not appear on the right. -/
def rightSel (line : String) : Option (Tag × String) :=
  if startswith line "  " then some (Tag.unchanged, strDrop line 2)
  else if startswith line "- " then none
  else if startswith line "+ " then some (Tag.added, strDrop line 2)
  else none

/-- Strict lexicographic order on index pairs: the order in which the
nested loops of `highlight_diff` visit them. -/
def pairLt (p q : Nat × Nat) : Prop :=
  p.1 < q.1 ∨ (p.1 = q.1 ∧ p.2 < q.2)

/-- The spec's pair enumeration `(0,1), (0,2), …, (1,2), …`: all index
pairs `i < j < n`, grouped by first component in increasing order. -/
def lexPairs (n : Nat) : List (Nat × Nat) :=
  (List.range n).flatMap
    (fun i => ((List.range n).filter (fun j => i < j)).map (fun j => (i, j)))

/-- The `help_files` dict of `compare_versions` (`app.py` line 77). -/
def help_filesD (get_help_files : String → List (String × String))
    (versions : List String) : List (String × List (String × String)) :=
  dictOfList (versions.map (fun v => (v, get_help_files v)))

/-- The sorted union of command names (`app.py` lines 79-81, 85). -/
def allCommandsD (get_help_files : String → List (String × String))
    (versions : List String) : List String :=
  pyDedup (((help_filesD get_help_files versions).map Prod.snd).flatMap
    (fun files => dictKeys files))

/-- The `cmd_versions` dict for one command (`app.py` lines 87-89). -/
def cmdVersionsD (get_help_files : String → List (String × String))
    (versions : List String) (cmd : String) : List (String × String) :=
  dictOfList (versions.map
    (fun v => (v, dictGetD (dictGetD (help_filesD get_help_files versions) v []) cmd "")))

/-- The inclusion test of `compare_versions` (`app.py` lines 90-93): some
version's text differs from the first selected version's text. -/
def differsD (get_help_files : String → List (String × String))
    (versions : List String) (cmd : String) : Bool :=
  versions.tail.any (fun v =>
    dictGetD (cmdVersionsD get_help_files versions cmd) v "" !=
      dictGetD (cmdVersionsD get_help_files versions cmd) (versions.headD "") "")

/-- A selected version's text for an entry: the corpus text when present,
else the empty string (spec §4.3 step 3). -/
def entryText (get_help_files : String → List (String × String))
    (v cmd : String) : String :=
  dictGetD (get_help_files v) cmd ""

/-- Python `s.endswith(suff)`. -/
def endswith (s suff : String) : Bool := suff.data.isSuffixOf s.data

/-- One iteration of the nested pair loop of `highlight_diff`
(`app.py` 122-148), as a function of the visited index pair: render the
pair and store both sides in the accumulator dict. -/
def hlStep (cmd_versions : List (String × String))
    (highlighted : List (String × String)) (ij : Nat × Nat) : List (String × String) :=
  dictSet
    (dictSet highlighted ((dictKeys cmd_versions).getD ij.1 "")
      (renderPair (dictGetD cmd_versions ((dictKeys cmd_versions).getD ij.1 "") "")
        (dictGetD cmd_versions ((dictKeys cmd_versions).getD ij.2 "") "")).1)
    ((dictKeys cmd_versions).getD ij.2 "")
    (renderPair (dictGetD cmd_versions ((dictKeys cmd_versions).getD ij.1 "") "")
      (dictGetD cmd_versions ((dictKeys cmd_versions).getD ij.2 "") "")).2

/-- The spec's §8 concrete scenario: corpus `A` has `{"ABORT": "x"}`,
corpus `B` has `{"ABORT": "x", "ALTER": "y"}`. -/
def corpusAB : String → List (String × String) := fun v =>
  if v = "A" then [("ABORT", "x")]
  else if v = "B" then [("ABORT", "x"), ("ALTER", "y")]
  else []

/-- Two corpora whose entry `E` differs only by a trailing newline. -/
def corpusNL : String → List (String × String) := fun v =>
  if v = "A" then [("E", "x")]
  else if v = "B" then [("E", "x\n")]
  else []

/-! ## Dictionary lemmas -/

theorem dictGet?_dictSet {α β : Type} [DecidableEq α] (d : List (α × β)) (k k' : α) (v : β) :
    dictGet? (dictSet d k v) k' = if k = k' then some v else dictGet? d k' := by
  induction d with
  | nil => simp [dictSet, dictGet?]
  | cons p rest ih =>
    obtain ⟨k0, v0⟩ := p
    by_cases h : k0 = k
    · subst h
      by_cases h2 : k0 = k' <;> simp [dictSet, dictGet?, h2]
    · by_cases h2 : k0 = k'
      · subst h2
        have : ¬(k = k0) := fun he => h he.symm
        simp [dictSet, h, dictGet?, this]
      · simp [dictSet, h, dictGet?, h2, ih]

theorem dictGetD_dictSet {α β : Type} [DecidableEq α] (d : List (α × β)) (k k' : α)
    (v dflt : β) :
    dictGetD (dictSet d k v) k' dflt = if k = k' then v else dictGetD d k' dflt := by
  by_cases h : k = k' <;> simp [dictGetD, dictGet?_dictSet, h]

theorem dictSet_eq_append {α β : Type} [DecidableEq α] (d : List (α × β)) (k : α) (v : β)
    (h : k ∉ dictKeys d) : dictSet d k v = d ++ [(k, v)] := by
  induction d with
  | nil => rfl
  | cons p rest ih =>
    obtain ⟨k0, v0⟩ := p
    simp only [dictKeys, List.map_cons, List.mem_cons, not_or] at h
    simp only [dictSet, if_neg (Ne.symm h.1), List.cons_append]
    exact congrArg (List.cons (k0, v0)) (ih (by simpa [dictKeys] using h.2))

theorem mem_of_mem_dictSet {α β : Type} [DecidableEq α] {d : List (α × β)} {k : α} {v : β}
    {p : α × β} (h : p ∈ dictSet d k v) : p ∈ d ∨ p = (k, v) := by
  induction d with
  | nil => simpa [dictSet] using h
  | cons q rest ih =>
    obtain ⟨k0, v0⟩ := q
    by_cases he : k0 = k
    · subst he
      rcases (by simpa [dictSet] using h : p = (k0, v) ∨ p ∈ rest) with h1 | h1
      · exact Or.inr h1
      · exact Or.inl (List.mem_cons_of_mem _ h1)
    · rcases (by simpa [dictSet, he] using h : p = (k0, v0) ∨ p ∈ dictSet rest k v) with h1 | h1
      · exact Or.inl (by simp [h1])
      · rcases ih h1 with h2 | h2
        · exact Or.inl (List.mem_cons_of_mem _ h2)
        · exact Or.inr h2

theorem mem_dictKeys_dictSet {α β : Type} [DecidableEq α] (d : List (α × β)) (k k' : α)
    (v : β) : k' ∈ dictKeys (dictSet d k v) ↔ k' ∈ dictKeys d ∨ k' = k := by
  induction d with
  | nil => simp [dictSet, dictKeys]
  | cons p rest ih =>
    obtain ⟨k0, v0⟩ := p
    by_cases he : k0 = k
    · subst he
      simp [dictSet, dictKeys]
      tauto
    · simp only [dictSet, if_neg he, dictKeys, List.map_cons, List.mem_cons] at *
      rw [ih]
      tauto

theorem dictGet?_mem {α β : Type} [DecidableEq α] {d : List (α × β)} {k : α} {v : β}
    (h : dictGet? d k = some v) : (k, v) ∈ d := by
  induction d with
  | nil => simp [dictGet?] at h
  | cons p rest ih =>
    obtain ⟨k0, v0⟩ := p
    by_cases he : k0 = k
    · subst he
      have h2 : v0 = v := by simpa [dictGet?] using h
      subst h2
      exact List.mem_cons_self _ _
    · simp only [dictGet?, if_neg he] at h
      exact List.mem_cons_of_mem _ (ih h)

/-! ## `pyDedup` lemmas -/

theorem mem_pyDedup {α : Type} [DecidableEq α] (a : α) (l : List α) :
    a ∈ pyDedup l ↔ a ∈ l := by
  induction l with
  | nil => simp [pyDedup]
  | cons b rest ih =>
    simp only [pyDedup, List.mem_cons, List.mem_filter]
    constructor
    · rintro (h | ⟨h, _⟩)
      · exact Or.inl h
      · exact Or.inr (ih.mp h)
    · rintro (h | h)
      · exact Or.inl h
      · by_cases he : a = b
        · exact Or.inl he
        · exact Or.inr ⟨ih.mpr h, by simp [he]⟩

theorem nodup_pyDedup {α : Type} [DecidableEq α] (l : List α) : (pyDedup l).Nodup := by
  induction l with
  | nil => simp [pyDedup]
  | cons b rest ih =>
    refine List.Nodup.cons ?_ (List.Nodup.filter _ ih)
    intro hmem
    rcases List.mem_filter.mp hmem with ⟨_, hne⟩
    simp at hne

theorem perm_pyDedup {α : Type} [DecidableEq α] {l₁ l₂ : List α} (h : l₁.Perm l₂) :
    (pyDedup l₁).Perm (pyDedup l₂) := by
  refine (List.perm_ext_iff_of_nodup (nodup_pyDedup l₁) (nodup_pyDedup l₂)).mpr ?_
  intro a
  rw [mem_pyDedup, mem_pyDedup]
  exact ⟨fun ha => h.mem_iff.mp ha, fun ha => h.mem_iff.mpr ha⟩

/-! ## String lemmas -/

theorem data_append (s t : String) : (s ++ t).data = s.data ++ t.data := by
  cases s
  cases t
  rfl

theorem isPrefixOf_append_self (l m : List Char) : l.isPrefixOf (l ++ m) = true := by
  induction l with
  | nil =>
    rw [List.nil_append]
    cases m <;> rfl
  | cons a rest ih => simp [List.isPrefixOf, ih]

theorem startswith_append_self (p s : String) : startswith (p ++ s) p = true := by
  rw [startswith, data_append]
  exact isPrefixOf_append_self _ _

theorem sw_del_sp (l : String) : startswith ("- " ++ l) "  " = false := by
  rw [startswith, data_append]
  show (' ' :: ' ' :: []).isPrefixOf ('-' :: ' ' :: l.data) = false
  simp [List.isPrefixOf]

theorem sw_add_sp (l : String) : startswith ("+ " ++ l) "  " = false := by
  rw [startswith, data_append]
  show (' ' :: ' ' :: []).isPrefixOf ('+' :: ' ' :: l.data) = false
  simp [List.isPrefixOf]

theorem sw_add_del (l : String) : startswith ("+ " ++ l) "- " = false := by
  rw [startswith, data_append]
  show ('-' :: ' ' :: []).isPrefixOf ('+' :: ' ' :: l.data) = false
  simp [List.isPrefixOf]

theorem strDrop_marker (p l : String) (h : p.data.length = 2) : strDrop (p ++ l) 2 = l := by
  rw [strDrop, data_append, List.drop_append_eq_append_drop, List.drop_eq_nil_of_le (by omega),
    h]
  simp

/-! ## Diff Engine lemmas -/

theorem lcsFuel_sublist_left :
    ∀ fuel xs ys, List.Sublist (lcsFuel fuel xs ys) xs := by
  intro fuel
  induction fuel with
  | zero => intro xs ys; exact List.nil_sublist xs
  | succ f ih =>
    intro xs ys
    match xs, ys with
    | [], _ => exact List.nil_sublist _
    | _ :: _, [] => exact List.nil_sublist _
    | a :: as, b :: bs =>
      simp only [lcsFuel]
      split
      · exact List.cons_sublist_cons.mpr (ih as bs)
      · split
        · exact List.Sublist.cons a (ih as (b :: bs))
        · exact ih (a :: as) bs

theorem lcsFuel_sublist_right :
    ∀ fuel xs ys, List.Sublist (lcsFuel fuel xs ys) ys := by
  intro fuel
  induction fuel with
  | zero => intro xs ys; exact List.nil_sublist ys
  | succ f ih =>
    intro xs ys
    match xs, ys with
    | [], _ => exact List.nil_sublist _
    | _ :: _, [] => exact List.nil_sublist _
    | a :: as, b :: bs =>
      simp only [lcsFuel]
      split
      · rename_i hab
        exact hab ▸ List.cons_sublist_cons.mpr (ih as bs)
      · split
        · exact ih as (b :: bs)
        · exact List.Sublist.cons b (ih (a :: as) bs)

theorem lcs_sublist_left (xs ys : List String) : List.Sublist (lcs xs ys) xs :=
  lcsFuel_sublist_left _ xs ys

theorem lcs_sublist_right (xs ys : List String) : List.Sublist (lcs xs ys) ys :=
  lcsFuel_sublist_right _ xs ys

/-- When `c` occurs in `ls`, `dropWhile (· ≠ c)` stops exactly at the first
occurrence of `c`. -/
theorem dropWhile_ne_eq_cons {c : String} :
    ∀ {ls : List String}, c ∈ ls →
      ls.dropWhile (fun l => l ≠ c) = c :: (ls.dropWhile (fun l => l ≠ c)).tail := by
  intro ls
  induction ls with
  | nil => intro h; simp at h
  | cons x rest ih =>
    intro h
    by_cases hx : x = c
    · subst hx
      simp [List.dropWhile_cons]
    · have hc : c ∈ rest := by
        rcases List.mem_cons.mp h with h1 | h1
        · exact absurd h1.symm hx
        · exact h1
      simpa [List.dropWhile_cons, hx] using ih hc

/-- Reconstruction of a list around the first occurrence of `c`. -/
theorem takeWhile_ne_append {c : String} {ls : List String} (h : c ∈ ls) :
    ls.takeWhile (fun l => l ≠ c) ++ c :: (ls.dropWhile (fun l => l ≠ c)).tail = ls := by
  conv_rhs => rw [← List.takeWhile_append_dropWhile (p := fun l => decide (l ≠ c)) (l := ls)]
  rw [← dropWhile_ne_eq_cons h]

/-- A sublist headed by `c` stays a sublist after cutting `ls` at the first
occurrence of `c`. -/
theorem sublist_tail_dropWhile {c : String} {cs : List String} :
    ∀ {ls : List String}, List.Sublist (c :: cs) ls →
      List.Sublist cs ((ls.dropWhile (fun l => l ≠ c)).tail) := by
  intro ls
  induction ls with
  | nil => intro h; cases h
  | cons x rest ih =>
    intro h
    by_cases hx : x = c
    · subst hx
      have hd : (x :: rest).dropWhile (fun l => decide (l ≠ x)) = x :: rest := by
        simp [List.dropWhile_cons]
      rw [hd, List.tail_cons]
      cases h with
      | cons _ h2 => exact (List.sublist_cons_self x cs).trans h2
      | cons₂ _ h2 => exact h2
    · cases h with
      | cons _ h2 =>
        simpa [List.dropWhile_cons, hx] using ih h2
      | cons₂ _ h2 => exact absurd rfl hx

/-! Per-line classification of the three `difflib` markers. -/

theorem leftSel_eq_line (l : String) : leftSel ("  " ++ l) = some (Tag.unchanged, l) := by
  rw [leftSel, if_pos (startswith_append_self "  " l), strDrop_marker "  " l (by decide)]

theorem leftSel_del_line (l : String) : leftSel ("- " ++ l) = some (Tag.deleted, l) := by
  rw [leftSel, if_neg (by simp [sw_del_sp]), if_pos (startswith_append_self "- " l),
    strDrop_marker "- " l (by decide)]

theorem leftSel_add_line (l : String) : leftSel ("+ " ++ l) = none := by
  rw [leftSel, if_neg (by simp [sw_add_sp]), if_neg (by simp [sw_add_del])]

theorem rightSel_eq_line (l : String) : rightSel ("  " ++ l) = some (Tag.unchanged, l) := by
  rw [rightSel, if_pos (startswith_append_self "  " l), strDrop_marker "  " l (by decide)]

theorem rightSel_del_line (l : String) : rightSel ("- " ++ l) = none := by
  rw [rightSel, if_neg (by simp [sw_del_sp]), if_pos (startswith_append_self "- " l)]

theorem rightSel_add_line (l : String) : rightSel ("+ " ++ l) = some (Tag.added, l) := by
  rw [rightSel, if_neg (by simp [sw_add_sp]), if_neg (by simp [sw_add_del]),
    if_pos (startswith_append_self "+ " l), strDrop_marker "+ " l (by decide)]

theorem filterMap_leftSel_delBlock (ls : List String) :
    (ls.map (fun l => "- " ++ l)).filterMap leftSel = ls.map (fun l => (Tag.deleted, l)) := by
  induction ls with
  | nil => rfl
  | cons a rest ih => simp [List.filterMap_cons, leftSel_del_line, ih]

theorem filterMap_leftSel_addBlock (ls : List String) :
    (ls.map (fun l => "+ " ++ l)).filterMap leftSel = [] := by
  induction ls with
  | nil => rfl
  | cons a rest ih => simp [List.filterMap_cons, leftSel_add_line, ih]

theorem filterMap_rightSel_delBlock (ls : List String) :
    (ls.map (fun l => "- " ++ l)).filterMap rightSel = [] := by
  induction ls with
  | nil => rfl
  | cons a rest ih => simp [List.filterMap_cons, rightSel_del_line, ih]

theorem filterMap_rightSel_addBlock (ls : List String) :
    (ls.map (fun l => "+ " ++ l)).filterMap rightSel = ls.map (fun l => (Tag.added, l)) := by
  induction ls with
  | nil => rfl
  | cons a rest ih => simp [List.filterMap_cons, rightSel_add_line, ih]

/-- On the left side, the annotated lines of a diff are exactly the left
input lines, in order. -/
theorem leftSel_emitOps :
    ∀ common ls rs, List.Sublist common ls → List.Sublist common rs →
      ((emitOps common ls rs).filterMap leftSel).map Prod.snd = ls := by
  intro common
  induction common with
  | nil =>
    intro ls rs _ _
    simp only [emitOps, List.filterMap_append, filterMap_leftSel_delBlock,
      filterMap_leftSel_addBlock, List.append_nil, List.map_map]
    rw [show (Prod.snd ∘ fun l => (Tag.deleted, l)) = id from rfl, List.map_id]
  | cons c cs ih =>
    intro ls rs hls hrs
    have hcl : c ∈ ls := hls.subset (List.mem_cons_self c cs)
    have ihe := ih _ _ (sublist_tail_dropWhile hls) (sublist_tail_dropWhile hrs)
    simp only [emitOps, List.filterMap_append, filterMap_leftSel_delBlock,
      filterMap_leftSel_addBlock, List.filterMap_cons, leftSel_eq_line, List.append_nil,
      List.map_append, List.map_map, List.map_cons, ihe]
    rw [show (Prod.snd ∘ fun l => (Tag.deleted, l)) = id from rfl, List.map_id]
    exact takeWhile_ne_append hcl

/-- On the right side, the annotated lines of a diff are exactly the right
input lines, in order. -/
theorem rightSel_emitOps :
    ∀ common ls rs, List.Sublist common ls → List.Sublist common rs →
      ((emitOps common ls rs).filterMap rightSel).map Prod.snd = rs := by
  intro common
  induction common with
  | nil =>
    intro ls rs _ _
    simp only [emitOps, List.filterMap_append, filterMap_rightSel_delBlock,
      filterMap_rightSel_addBlock, List.nil_append, List.map_map]
    rw [show (Prod.snd ∘ fun l => (Tag.added, l)) = id from rfl, List.map_id]
  | cons c cs ih =>
    intro ls rs hls hrs
    have hcr : c ∈ rs := hrs.subset (List.mem_cons_self c cs)
    have ihe := ih _ _ (sublist_tail_dropWhile hls) (sublist_tail_dropWhile hrs)
    simp only [emitOps, List.filterMap_append, filterMap_rightSel_delBlock,
      filterMap_rightSel_addBlock, List.filterMap_cons, rightSel_eq_line, List.nil_append,
      List.map_append, List.map_map, List.map_cons, ihe]
    rw [show (Prod.snd ∘ fun l => (Tag.added, l)) = id from rfl, List.map_id]
    exact takeWhile_ne_append hcr

theorem leftSel_differ (l1 l2 : List String) :
    (((differ l1 l2).filterMap leftSel).map Prod.snd) = l1 :=
  leftSel_emitOps _ _ _ (lcs_sublist_left l1 l2) (lcs_sublist_right l1 l2)

theorem rightSel_differ (l1 l2 : List String) :
    (((differ l1 l2).filterMap rightSel).map Prod.snd) = l2 :=
  rightSel_emitOps _ _ _ (lcs_sublist_left l1 l2) (lcs_sublist_right l1 l2)

theorem leftSel_tag_range {d : List String} {p : Tag × String}
    (h : p ∈ d.filterMap leftSel) : p.1 = Tag.unchanged ∨ p.1 = Tag.deleted := by
  rcases List.mem_filterMap.mp h with ⟨line, _, hsel⟩
  rw [leftSel] at hsel
  split at hsel
  · cases hsel; exact Or.inl rfl
  · split at hsel
    · cases hsel; exact Or.inr rfl
    · cases hsel

theorem rightSel_tag_range {d : List String} {p : Tag × String}
    (h : p ∈ d.filterMap rightSel) : p.1 = Tag.unchanged ∨ p.1 = Tag.added := by
  rcases List.mem_filterMap.mp h with ⟨line, _, hsel⟩
  rw [rightSel] at hsel
  split at hsel
  · cases hsel; exact Or.inl rfl
  · split at hsel
    · cases hsel
    · split at hsel
      · cases hsel; exact Or.inr rfl
      · cases hsel

/-! ## Annotator lemmas -/

theorem foldl_annotateLine (d : List String) :
    ∀ a1 a2 : List String,
      d.foldl annotateLine (a1, a2) =
        (a1 ++ (d.filterMap leftSel).map renderTag,
         a2 ++ (d.filterMap rightSel).map renderTag) := by
  induction d with
  | nil => intro a1 a2; simp
  | cons line rest ih =>
    intro a1 a2
    rw [List.foldl_cons]
    by_cases h1 : startswith line "  " = true
    · rw [show annotateLine (a1, a2) line =
          (a1 ++ [unchangedSpan (strDrop line 2)], a2 ++ [unchangedSpan (strDrop line 2)]) by
        simp [annotateLine, h1]]
      rw [ih]
      simp [List.filterMap_cons, leftSel, rightSel, h1, renderTag]
    · by_cases h2 : startswith line "- " = true
      · rw [show annotateLine (a1, a2) line =
            (a1 ++ [deletedSpan (strDrop line 2)], a2) by
          simp [annotateLine, h1, h2]]
        rw [ih]
        simp [List.filterMap_cons, leftSel, rightSel, h1, h2, renderTag]
      · by_cases h3 : startswith line "+ " = true
        · rw [show annotateLine (a1, a2) line =
              (a1, a2 ++ [addedSpan (strDrop line 2)]) by
            simp [annotateLine, h1, h2, h3]]
          rw [ih]
          simp [List.filterMap_cons, leftSel, rightSel, h1, h2, h3, renderTag]
        · rw [show annotateLine (a1, a2) line = (a1, a2) by
            simp [annotateLine, h1, h2, h3]]
          rw [ih]
          simp [List.filterMap_cons, leftSel, rightSel, h1, h2, h3]

theorem annotatePair_eq (d : List String) :
    annotatePair d =
      ((d.filterMap leftSel).map renderTag, (d.filterMap rightSel).map renderTag) := by
  simpa [annotatePair] using foldl_annotateLine d [] []

theorem renderPair_eq (t1 t2 : String) :
    renderPair t1 t2 =
      ("<pre>" ++ joinNL (((differ (splitlines t1) (splitlines t2)).filterMap leftSel).map
          renderTag) ++ "</pre>",
       "<pre>" ++ joinNL (((differ (splitlines t1) (splitlines t2)).filterMap rightSel).map
          renderTag) ++ "</pre>") := by
  simp only [renderPair, annotatePair_eq]

theorem highlight_diff_pair (v1 v2 t1 t2 : String) (h : v1 ≠ v2) :
    highlight_diff [(v1, t1), (v2, t2)] =
      [(v1, (renderPair t1 t2).1), (v2, (renderPair t1 t2).2)] := by
  have h2 : ¬ (v1 = v2) := h
  simp only [highlight_diff, dictKeys, List.map_cons, List.map_nil]
  rw [show ([v1, v2] : List String).length = 2 from rfl,
    show pairList 2 = [(0, 1)] from rfl]
  simp only [List.foldl_cons, List.foldl_nil]
  simp [dictGetD, dictGet?, dictSet, h2]

/-! ## Claim C1 -/

/-- **C1**: for every pair of entry texts, `highlight_diff` on the
two-version dict renders, per side, exactly the classified lines selected
for that side; the left annotations list every line of the left text
exactly once in original order (each tagged unchanged or deleted), and the
right annotations list every line of the right text exactly once in
original order (each tagged unchanged or added) — no line duplicated or
dropped. -/
theorem highlight_diff_pair_accounts_all_lines (v1 v2 t1 t2 : String) (h : v1 ≠ v2) :
    highlight_diff [(v1, t1), (v2, t2)] =
      [(v1, "<pre>" ++ joinNL (((differ (splitlines t1) (splitlines t2)).filterMap
          leftSel).map renderTag) ++ "</pre>"),
       (v2, "<pre>" ++ joinNL (((differ (splitlines t1) (splitlines t2)).filterMap
          rightSel).map renderTag) ++ "</pre>")] ∧
    ((differ (splitlines t1) (splitlines t2)).filterMap leftSel).map Prod.snd =
      splitlines t1 ∧
    ((differ (splitlines t1) (splitlines t2)).filterMap rightSel).map Prod.snd =
      splitlines t2 ∧
    ((differ (splitlines t1) (splitlines t2)).filterMap leftSel).all
      (fun p => p.1 == Tag.unchanged || p.1 == Tag.deleted) = true ∧
    ((differ (splitlines t1) (splitlines t2)).filterMap rightSel).all
      (fun p => p.1 == Tag.unchanged || p.1 == Tag.added) = true := by
  refine ⟨?_, leftSel_differ _ _, rightSel_differ _ _, ?_, ?_⟩
  · rw [highlight_diff_pair v1 v2 t1 t2 h, renderPair_eq]
  · rw [List.all_eq_true]
    intro p hp
    rcases leftSel_tag_range hp with h1 | h1 <;> simp [h1]
  · rw [List.all_eq_true]
    intro p hp
    rcases rightSel_tag_range hp with h1 | h1 <;> simp [h1]

/-- Witness for C1 at a concrete input. -/
theorem highlight_diff_pair_accounts_all_lines_witness :
    highlight_diff [("A", "a\nb"), ("B", "b\nc")] =
      [("A", "<pre>" ++ joinNL (((differ (splitlines "a\nb") (splitlines "b\nc")).filterMap
          leftSel).map renderTag) ++ "</pre>"),
       ("B", "<pre>" ++ joinNL (((differ (splitlines "a\nb") (splitlines "b\nc")).filterMap
          rightSel).map renderTag) ++ "</pre>")] ∧
    ((differ (splitlines "a\nb") (splitlines "b\nc")).filterMap leftSel).map Prod.snd =
      splitlines "a\nb" ∧
    ((differ (splitlines "a\nb") (splitlines "b\nc")).filterMap rightSel).map Prod.snd =
      splitlines "b\nc" ∧
    ((differ (splitlines "a\nb") (splitlines "b\nc")).filterMap leftSel).all
      (fun p => p.1 == Tag.unchanged || p.1 == Tag.deleted) = true ∧
    ((differ (splitlines "a\nb") (splitlines "b\nc")).filterMap rightSel).all
      (fun p => p.1 == Tag.unchanged || p.1 == Tag.added) = true :=
  highlight_diff_pair_accounts_all_lines "A" "B" "a\nb" "b\nc" (by decide)

/-! ## Claim C5 -/

/-- **C5**: the annotation loop body appends an unchanged-tagged line to
both sides for an `"  "` (equal) line, a deleted-tagged line to the left
side only for a `"- "` line, and an added-tagged line to the right side
only for a `"+ "` line; the literal line text is embedded unmodified in
the span, and the deleted/added span markup carries a `background-color`
style attribute while the unchanged span markup carries none. -/
theorem annotateLine_classification (acc : List String × List String) (text : String) :
    annotateLine acc ("  " ++ text) =
      (acc.1 ++ [unchangedSpan text], acc.2 ++ [unchangedSpan text]) ∧
    annotateLine acc ("- " ++ text) = (acc.1 ++ [deletedSpan text], acc.2) ∧
    annotateLine acc ("+ " ++ text) = (acc.1, acc.2 ++ [addedSpan text]) ∧
    unchangedSpan text = "<span class=\"unchanged\">" ++ text ++ "</span>" ∧
    deletedSpan text =
      "<span class=\"deleted\" style=\"background-color: #ffeef0;\">" ++ text ++ "</span>" ∧
    addedSpan text =
      "<span class=\"added\" style=\"background-color: #e6ffed;\">" ++ text ++ "</span>" ∧
    containsSeq "background-color".data
      "<span class=\"deleted\" style=\"background-color: #ffeef0;\">".data = true ∧
    containsSeq "background-color".data
      "<span class=\"added\" style=\"background-color: #e6ffed;\">".data = true ∧
    containsSeq "background-color".data "<span class=\"unchanged\">".data = false ∧
    containsSeq "background-color".data "</span>".data = false := by
  refine ⟨?_, ?_, ?_, rfl, rfl, rfl, by decide, by decide, by decide, by decide⟩
  · rw [annotateLine, if_pos (startswith_append_self "  " text),
      strDrop_marker "  " text (by decide)]
  · rw [annotateLine, if_neg (by simp [sw_del_sp]), if_pos (startswith_append_self "- " text),
      strDrop_marker "- " text (by decide)]
  · rw [annotateLine, if_neg (by simp [sw_add_sp]), if_neg (by simp [sw_add_del]),
      if_pos (startswith_append_self "+ " text), strDrop_marker "+ " text (by decide)]

/-! ## `pairList` structure lemmas -/

theorem drop_range (n m : Nat) : (List.range n).drop m = List.range' m (n - m) := by
  apply List.ext_getElem
  · simp
  · intro i h1 h2
    rw [List.getElem_drop, List.getElem_range, List.getElem_range', one_mul]

theorem mem_pairList (n i j : Nat) : (i, j) ∈ pairList n ↔ i < j ∧ j < n := by
  simp only [pairList, List.mem_flatMap, List.mem_map, drop_range, List.mem_range,
    List.mem_range'_1, Prod.mk.injEq]
  constructor
  · rintro ⟨a, ha, b, hb, rfl, rfl⟩
    omega
  · rintro ⟨h1, h2⟩
    exact ⟨i, by omega, j, by omega, rfl, rfl⟩

theorem filter_lt_range (n i : Nat) :
    (List.range n).filter (fun j => i < j) = (List.range n).drop (i + 1) := by
  rw [drop_range]
  induction n with
  | zero =>
    rw [show (0 : Nat) - (i + 1) = 0 by omega]
    rfl
  | succ n ih =>
    rw [List.range_succ, List.filter_append, ih]
    by_cases h : i < n
    · have hn : n - (i + 1) + 1 = n + 1 - (i + 1) := by omega
      rw [show List.filter (fun j => decide (i < j)) [n] = [n] by simp [h], ← hn,
        List.range'_concat]
      have : i + 1 + 1 * (n - (i + 1)) = n := by omega
      rw [this]
    · have h1 : n - (i + 1) = 0 := by omega
      have h2 : n + 1 - (i + 1) = 0 := by omega
      rw [show List.filter (fun j => decide (i < j)) [n] = ([] : List Nat) by simp [h], h1, h2,
        List.append_nil]

theorem pairList_eq_lexPairs (n : Nat) : pairList n = lexPairs n := by
  rw [pairList, lexPairs]
  exact congrArg (List.range n).flatMap (funext fun i => by rw [filter_lt_range])

theorem pairwise_lt_of_block (i s t : Nat) :
    ((List.range' s t).map (fun j => (i, j))).Pairwise pairLt := by
  rw [List.pairwise_map]
  exact (List.pairwise_lt_range' s t).imp (fun h => Or.inr ⟨rfl, h⟩)

theorem pairwise_pairList_aux (n : Nat) :
    ∀ t s, ((List.range' s t).flatMap
      (fun i => ((List.range n).drop (i + 1)).map (fun j => (i, j)))).Pairwise pairLt := by
  intro t
  induction t with
  | zero => intro s; simp
  | succ t ih =>
    intro s
    rw [List.range'_succ, List.flatMap_cons, List.pairwise_append]
    refine ⟨by rw [drop_range]; exact pairwise_lt_of_block s (s + 1) (n - (s + 1)), ih (s + 1), ?_⟩
    intro a ha b hb
    have ha1 : a.1 = s := by
      rcases List.mem_map.mp ha with ⟨j, _, rfl⟩
      rfl
    have hb1 : s + 1 ≤ b.1 := by
      rcases List.mem_flatMap.mp hb with ⟨i, hi, hbi⟩
      rcases List.mem_map.mp hbi with ⟨j, _, rfl⟩
      exact (List.mem_range'_1.mp hi).1
    exact Or.inl (by omega)

theorem pairwise_pairList (n : Nat) : (pairList n).Pairwise pairLt := by
  rw [pairList]
  nth_rewrite 1 [List.range_eq_range']
  exact pairwise_pairList_aux n n 0

/-- Splitting the pair enumeration at the pair `(k, n-1)`: every pair after
it has first component greater than `k`. -/
theorem pairList_split (n k : Nat) (hk : k + 1 < n) :
    ∃ pre suf, pairList n = pre ++ (k, n - 1) :: suf ∧
      ∀ p ∈ suf, k < p.1 ∧ p.1 < p.2 ∧ p.2 < n := by
  have hsplit : List.range n = List.range (k + 1) ++ (List.range (n - k - 1)).map (k + 1 + ·) := by
    conv_lhs => rw [show n = (k + 1) + (n - k - 1) by omega]
    exact List.range_add (k + 1) (n - k - 1)
  rw [pairList]
  nth_rewrite 1 [hsplit]
  rw [List.flatMap_append]
  nth_rewrite 1 [List.range_succ]
  rw [List.flatMap_append]
  have hblock : ((List.range n).drop (k + 1)).map (fun j => (k, j)) =
      ((List.range' (k + 1) (n - k - 2)).map (fun j => (k, j))) ++ [(k, n - 1)] := by
    rw [drop_range, show n - (k + 1) = (n - k - 2) + 1 by omega, List.range'_concat,
      List.map_append]
    simp only [List.map_cons, List.map_nil]
    rw [show k + 1 + 1 * (n - k - 2) = n - 1 by omega]
  refine ⟨(List.range k).flatMap (fun i => ((List.range n).drop (i + 1)).map (fun j => (i, j))) ++
      (List.range' (k + 1) (n - k - 2)).map (fun j => (k, j)),
    ((List.range (n - k - 1)).map (k + 1 + ·)).flatMap
      (fun i => ((List.range n).drop (i + 1)).map (fun j => (i, j))), ?_, ?_⟩
  · rw [List.flatMap_singleton, hblock]
    simp [List.append_assoc]
  · intro p hp
    rcases List.mem_flatMap.mp hp with ⟨i, hi, hpi⟩
    rcases List.mem_map.mp hi with ⟨a, _, rfl⟩
    rcases List.mem_map.mp hpi with ⟨j, hj, rfl⟩
    rw [drop_range, List.mem_range'_1] at hj
    refine ⟨by omega, by omega, by omega⟩

/-- The last pair the loops visit is `(n-2, n-1)`. -/
theorem pairList_last (n : Nat) (hn : 2 ≤ n) :
    ∃ pre, pairList n = pre ++ [(n - 2, n - 1)] := by
  rcases pairList_split n (n - 2) (by omega) with ⟨pre, suf, heq, hsuf⟩
  have hsufnil : suf = [] := by
    rw [List.eq_nil_iff_forall_not_mem]
    intro p hp
    rcases hsuf p hp with ⟨h1, h2, h3⟩
    omega
  exact ⟨pre, by rw [heq, hsufnil]⟩

/-! ## Foldl-of-dict-write lemmas -/

theorem highlight_diff_eq_foldl (cmd_versions : List (String × String)) :
    highlight_diff cmd_versions =
      (pairList (dictKeys cmd_versions).length).foldl (hlStep cmd_versions) [] := rfl

theorem dictGet?_foldl_hlStep_no_write (cvs : List (String × String)) (k : String)
    (l : List (Nat × Nat))
    (h : ∀ p ∈ l, (dictKeys cvs).getD p.1 "" ≠ k ∧ (dictKeys cvs).getD p.2 "" ≠ k) :
    ∀ d0, dictGet? (l.foldl (hlStep cvs) d0) k = dictGet? d0 k := by
  induction l with
  | nil => intro d0; rfl
  | cons p rest ih =>
    intro d0
    rw [List.foldl_cons, ih (fun q hq => h q (List.mem_cons_of_mem p hq)), hlStep,
      dictGet?_dictSet, if_neg (h p (List.mem_cons_self p rest)).2,
      dictGet?_dictSet, if_neg (h p (List.mem_cons_self p rest)).1]

theorem mem_dictKeys_foldl_hlStep (cvs : List (String × String)) (k : String)
    (l : List (Nat × Nat)) :
    ∀ d0, k ∈ dictKeys (l.foldl (hlStep cvs) d0) ↔
      k ∈ dictKeys d0 ∨ ∃ p ∈ l,
        k = (dictKeys cvs).getD p.1 "" ∨ k = (dictKeys cvs).getD p.2 "" := by
  induction l with
  | nil => intro d0; simp
  | cons p rest ih =>
    intro d0
    rw [List.foldl_cons, ih, hlStep, mem_dictKeys_dictSet, mem_dictKeys_dictSet]
    constructor
    · rintro (((h | h) | h) | h)
      · exact Or.inl h
      · exact Or.inr ⟨p, List.mem_cons_self p rest, Or.inl h⟩
      · exact Or.inr ⟨p, List.mem_cons_self p rest, Or.inr h⟩
      · rcases h with ⟨q, hq, hk⟩
        exact Or.inr ⟨q, List.mem_cons_of_mem p hq, hk⟩
    · rintro (h | ⟨q, hq, hk⟩)
      · exact Or.inl (Or.inl (Or.inl h))
      · rcases List.mem_cons.mp hq with rfl | hq2
        · rcases hk with hk | hk
          · exact Or.inl (Or.inl (Or.inr hk))
          · exact Or.inl (Or.inr hk)
        · exact Or.inr ⟨q, hq2, hk⟩

/-- Values stored by the pair loop all have an invariant shape. -/
theorem value_shape_foldl_hlStep (cvs : List (String × String))
    (P : String → Prop)
    (hP : ∀ t1 t2, P (renderPair t1 t2).1 ∧ P (renderPair t1 t2).2)
    (l : List (Nat × Nat)) :
    ∀ d0, (∀ p ∈ d0, P p.2) → ∀ p ∈ l.foldl (hlStep cvs) d0, P p.2 := by
  induction l with
  | nil => intro d0 h0; exact h0
  | cons q rest ih =>
    intro d0 h0
    rw [List.foldl_cons]
    refine ih _ ?_
    intro p hp
    rcases mem_of_mem_dictSet hp with hp2 | hp2
    · rcases mem_of_mem_dictSet hp2 with hp3 | hp3
      · exact h0 p hp3
      · rw [hp3]
        exact (hP _ _).1
    · rw [hp2]
      exact (hP _ _).2

theorem getD_ne_of_index_ne (l : List String) (hnd : l.Nodup) {i j : Nat}
    (hi : i < l.length) (hj : j < l.length) (hij : i ≠ j) :
    l.getD i "" ≠ l.getD j "" := by
  rw [List.getD_eq_getElem l "" hi, List.getD_eq_getElem l "" hj]
  intro he
  apply hij
  have h2 : l.get ⟨i, hi⟩ = l.get ⟨j, hj⟩ := by simpa using he
  simpa using congrArg Fin.val ((hnd.get_inj_iff).mp h2)

/-- The value `highlight_diff` finally stores for the `k`-th version: the
rendering from the last visited pair containing index `k`, i.e. `(k, n-1)`
for `k < n-1` (where the version is the left side) and `(n-2, n-1)` for
`k = n-1` (where it is the right side). -/
theorem highlight_diff_getD (cvs : List (String × String)) (k : Nat)
    (hn : 2 ≤ cvs.length) (hk : k < cvs.length) (hnd : (dictKeys cvs).Nodup) :
    dictGet? (highlight_diff cvs) ((dictKeys cvs).getD k "") =
      some (if k + 1 < cvs.length
        then (renderPair (dictGetD cvs ((dictKeys cvs).getD k "") "")
            (dictGetD cvs ((dictKeys cvs).getD (cvs.length - 1) "") "")).1
        else (renderPair (dictGetD cvs ((dictKeys cvs).getD (cvs.length - 2) "") "")
            (dictGetD cvs ((dictKeys cvs).getD (cvs.length - 1) "") "")).2) := by
  have hlen : (dictKeys cvs).length = cvs.length := by simp [dictKeys]
  by_cases hlt : k + 1 < cvs.length
  · rcases pairList_split cvs.length k hlt with ⟨pre, suf, heq, hsuf⟩
    have hsw : ∀ p ∈ suf, (dictKeys cvs).getD p.1 "" ≠ (dictKeys cvs).getD k "" ∧
        (dictKeys cvs).getD p.2 "" ≠ (dictKeys cvs).getD k "" := by
      intro p hp
      rcases hsuf p hp with ⟨h1, h2, h3⟩
      exact ⟨getD_ne_of_index_ne _ hnd (by omega) (by omega) (by omega),
        getD_ne_of_index_ne _ hnd (by omega) (by omega) (by omega)⟩
    rw [highlight_diff_eq_foldl, hlen, heq, List.foldl_append, List.foldl_cons]
    rw [dictGet?_foldl_hlStep_no_write cvs _ suf hsw]
    simp only [hlStep]
    rw [dictGet?_dictSet,
      if_neg (getD_ne_of_index_ne _ hnd (by omega) (by omega) (by omega)),
      dictGet?_dictSet, if_pos rfl, if_pos hlt]
  · have hk1 : k = cvs.length - 1 := by omega
    subst hk1
    rcases pairList_last cvs.length hn with ⟨pre, heq⟩
    rw [highlight_diff_eq_foldl, hlen, heq, List.foldl_append, List.foldl_cons, List.foldl_nil]
    simp only [hlStep]
    rw [dictGet?_dictSet, if_pos rfl, if_neg hlt]

/-! ## Claim C4 -/

/-- **C4**: for more than two versions, the nested loops of
`highlight_diff` visit index pairs in lexicographic order — `pairList n`
equals the ordered enumeration `lexPairs n` of all pairs `i < j < n` and is
strictly increasing for `pairLt` — and each version's rendered string in
the returned mapping is the one computed by the last visited pair
containing that version: pair `(k, n-1)` (left side) for `k < n-1`, and
pair `(n-2, n-1)` (right side) for the last version `k = n-1`
(last-pair-wins overwrite). -/
theorem highlight_diff_last_pair_wins (cvs : List (String × String)) (k : Nat)
    (hn : 2 < cvs.length) (hk : k < cvs.length) (hnd : (dictKeys cvs).Nodup) :
    pairList cvs.length = lexPairs cvs.length ∧
    (pairList cvs.length).Pairwise pairLt ∧
    dictGet? (highlight_diff cvs) ((dictKeys cvs).getD k "") =
      some (if k + 1 < cvs.length
        then (renderPair (dictGetD cvs ((dictKeys cvs).getD k "") "")
            (dictGetD cvs ((dictKeys cvs).getD (cvs.length - 1) "") "")).1
        else (renderPair (dictGetD cvs ((dictKeys cvs).getD (cvs.length - 2) "") "")
            (dictGetD cvs ((dictKeys cvs).getD (cvs.length - 1) "") "")).2) :=
  ⟨pairList_eq_lexPairs cvs.length, pairwise_pairList cvs.length,
    highlight_diff_getD cvs k (by omega) hk hnd⟩

/-- Witness for C4 at a concrete three-version input (middle version,
`k = 1`). -/
theorem highlight_diff_last_pair_wins_witness :
    pairList ([("A", "a"), ("B", "b"), ("C", "c")] : List (String × String)).length =
      lexPairs ([("A", "a"), ("B", "b"), ("C", "c")] : List (String × String)).length ∧
    (pairList ([("A", "a"), ("B", "b"), ("C", "c")] : List (String × String)).length).Pairwise
      pairLt ∧
    dictGet? (highlight_diff [("A", "a"), ("B", "b"), ("C", "c")])
        ((dictKeys ([("A", "a"), ("B", "b"), ("C", "c")] : List (String × String))).getD 1 "") =
      some (if 1 + 1 < ([("A", "a"), ("B", "b"), ("C", "c")] : List (String × String)).length
        then (renderPair
            (dictGetD [("A", "a"), ("B", "b"), ("C", "c")]
              ((dictKeys ([("A", "a"), ("B", "b"), ("C", "c")] :
                List (String × String))).getD 1 "") "")
            (dictGetD [("A", "a"), ("B", "b"), ("C", "c")]
              ((dictKeys ([("A", "a"), ("B", "b"), ("C", "c")] :
                List (String × String))).getD
                (([("A", "a"), ("B", "b"), ("C", "c")] :
                  List (String × String)).length - 1) "") "")).1
        else (renderPair
            (dictGetD [("A", "a"), ("B", "b"), ("C", "c")]
              ((dictKeys ([("A", "a"), ("B", "b"), ("C", "c")] :
                List (String × String))).getD
                (([("A", "a"), ("B", "b"), ("C", "c")] :
                  List (String × String)).length - 2) "") "")
            (dictGetD [("A", "a"), ("B", "b"), ("C", "c")]
              ((dictKeys ([("A", "a"), ("B", "b"), ("C", "c")] :
                List (String × String))).getD
                (([("A", "a"), ("B", "b"), ("C", "c")] :
                  List (String × String)).length - 1) "") "")).2) :=
  highlight_diff_last_pair_wins [("A", "a"), ("B", "b"), ("C", "c")] 1 (by decide) (by decide)
    (by decide)

/-! ## Keyed-dict lemmas (dict comprehensions whose value is a function of
the key, the shape of every dict `compare_versions` builds) -/

theorem dictGet?_foldl_keyed {β : Type} (f : String → β) (l : List String) (k : String) :
    ∀ d0 : List (String × β),
      dictGet? (l.foldl (fun d v => dictSet d v (f v)) d0) k =
        if k ∈ l then some (f k) else dictGet? d0 k := by
  induction l with
  | nil => intro d0; simp
  | cons a rest ih =>
    intro d0
    rw [List.foldl_cons, ih]
    by_cases hk : k ∈ rest
    · simp [hk]
    · by_cases ha : a = k
      · subst ha
        simp [hk, dictGet?_dictSet]
      · have hka : ¬ k = a := fun h => ha h.symm
        simp [hk, ha, hka, dictGet?_dictSet]

theorem dictGet?_dictOfList_keyed {β : Type} (f : String → β) (l : List String) (k : String) :
    dictGet? (dictOfList (l.map (fun v => (v, f v)))) k =
      if k ∈ l then some (f k) else none := by
  rw [dictOfList, List.foldl_map, dictGet?_foldl_keyed]
  rfl

theorem dictGetD_dictOfList_keyed {β : Type} (f : String → β) (l : List String) (k : String)
    (dflt : β) (hk : k ∈ l) :
    dictGetD (dictOfList (l.map (fun v => (v, f v)))) k dflt = f k := by
  rw [dictGetD, dictGet?_dictOfList_keyed, if_pos hk]
  rfl

theorem mem_keys_dictOfList_keyed {β : Type} (f : String → β) (l : List String) (k : String) :
    k ∈ dictKeys (dictOfList (l.map (fun v => (v, f v)))) ↔ k ∈ l := by
  have hso : ∀ d : List (String × β), k ∈ dictKeys d ↔ (dictGet? d k).isSome = true := by
    intro d
    induction d with
    | nil => simp [dictKeys, dictGet?]
    | cons p rest ih =>
      obtain ⟨k0, v0⟩ := p
      by_cases hk0 : k0 = k
      · subst hk0
        simp [dictKeys, dictGet?]
      · have hkk : ¬ k = k0 := fun h => hk0 h.symm
        have h1 : dictGet? ((k0, v0) :: rest) k = dictGet? rest k := by simp [dictGet?, hk0]
        have h2 : k ∈ dictKeys ((k0, v0) :: rest) ↔ k ∈ dictKeys rest := by
          simp [dictKeys, hkk]
        rw [h1, h2, ih]
  rw [hso, dictGet?_dictOfList_keyed]
  by_cases hk : k ∈ l <;> simp [hk]

theorem mem_foldl_keyed {β : Type} (f : String → β) (l : List String) :
    ∀ (d0 : List (String × β)) (p : String × β),
      p ∈ l.foldl (fun d v => dictSet d v (f v)) d0 → p ∈ d0 ∨ (p.1 ∈ l ∧ p.2 = f p.1) := by
  induction l with
  | nil => intro d0 p hp; exact Or.inl hp
  | cons a rest ih =>
    intro d0 p hp
    rw [List.foldl_cons] at hp
    rcases ih _ p hp with hp2 | hp2
    · rcases mem_of_mem_dictSet hp2 with hp3 | hp3
      · exact Or.inl hp3
      · rw [hp3]
        exact Or.inr ⟨List.mem_cons_self a rest, rfl⟩
    · exact Or.inr ⟨List.mem_cons_of_mem a hp2.1, hp2.2⟩

theorem mem_dictOfList_keyed {β : Type} (f : String → β) (l : List String) (p : String × β)
    (hp : p ∈ dictOfList (l.map (fun v => (v, f v)))) : p.1 ∈ l ∧ p.2 = f p.1 := by
  rw [dictOfList, List.foldl_map] at hp
  rcases mem_foldl_keyed f l [] p hp with h | h
  · simp at h
  · exact h

/-! ## `compare_versions` characterization -/

theorem foldl_filter_dictSet {β : Type} (cond : String → Bool) (f : String → β) :
    ∀ l : List String, l.Nodup →
      ∀ d0 : List (String × β), (∀ c ∈ l, c ∉ dictKeys d0) →
        l.foldl (fun diffs cmd => if cond cmd then dictSet diffs cmd (f cmd) else diffs) d0 =
          d0 ++ (l.filter cond).map (fun c => (c, f c)) := by
  intro l
  induction l with
  | nil => intro _ d0 _; simp
  | cons c rest ih =>
    intro hnd d0 hd0
    have hc0 : c ∉ dictKeys d0 := hd0 c (List.mem_cons_self c rest)
    rw [List.foldl_cons]
    by_cases hc : cond c = true
    · rw [if_pos hc, dictSet_eq_append d0 c (f c) hc0,
        ih hnd.of_cons _ ?_, List.filter_cons_of_pos hc]
      · simp [List.append_assoc]
      · intro a ha
        have : a ≠ c := fun he => (List.nodup_cons.mp hnd).1 (he ▸ ha)
        simp only [dictKeys, List.map_append] at *
        simp [this, hd0 a (List.mem_cons_of_mem c ha)]
    · rw [if_neg hc, ih hnd.of_cons d0 (fun a ha => hd0 a (List.mem_cons_of_mem c ha)),
        List.filter_cons_of_neg hc]

theorem nodup_sorted_allCommands (get_help_files : String → List (String × String))
    (versions : List String) :
    (List.insertionSort strLe (allCommandsD get_help_files versions)).Nodup :=
  ((List.perm_insertionSort strLe _).nodup_iff).mpr (nodup_pyDedup _)

theorem compare_versions_eq (get_help_files : String → List (String × String))
    (versions : List String) :
    compare_versions get_help_files versions =
      ((List.insertionSort strLe (allCommandsD get_help_files versions)).filter
        (differsD get_help_files versions)).map
        (fun cmd => (cmd, highlight_diff (cmdVersionsD get_help_files versions cmd))) := by
  have h := foldl_filter_dictSet (differsD get_help_files versions)
    (fun cmd => highlight_diff (cmdVersionsD get_help_files versions cmd))
    (List.insertionSort strLe (allCommandsD get_help_files versions))
    (nodup_sorted_allCommands get_help_files versions) [] (by simp [dictKeys])
  simpa using h

theorem help_files_lookup (get_help_files : String → List (String × String))
    (versions : List String) (v : String) (hv : v ∈ versions) :
    dictGetD (help_filesD get_help_files versions) v [] = get_help_files v := by
  rw [help_filesD, dictGetD, dictGet?_dictOfList_keyed, if_pos hv]
  rfl

theorem cmdVersions_lookup (get_help_files : String → List (String × String))
    (versions : List String) (cmd v : String) (hv : v ∈ versions) :
    dictGetD (cmdVersionsD get_help_files versions cmd) v "" =
      entryText get_help_files v cmd := by
  rw [cmdVersionsD, dictGetD, dictGet?_dictOfList_keyed, if_pos hv]
  rw [Option.getD_some, help_files_lookup get_help_files versions v hv, entryText]

theorem headD_mem {l : List String} (h : l ≠ []) : l.headD "" ∈ l := by
  cases l with
  | nil => exact absurd rfl h
  | cons a rest => simp

theorem differsD_iff (get_help_files : String → List (String × String))
    (versions : List String) (cmd : String) (hv : versions ≠ []) :
    differsD get_help_files versions cmd = true ↔
      ∃ v ∈ versions, entryText get_help_files v cmd ≠
        entryText get_help_files (versions.headD "") cmd := by
  rw [differsD, List.any_eq_true]
  constructor
  · rintro ⟨v, hvt, hb⟩
    have hvm : v ∈ versions := List.mem_of_mem_tail hvt
    rw [cmdVersions_lookup _ _ _ _ hvm, cmdVersions_lookup _ _ _ _ (headD_mem hv)] at hb
    exact ⟨v, hvm, bne_iff_ne.mp hb⟩
  · rintro ⟨v, hvm, hne⟩
    cases versions with
    | nil => exact absurd rfl hv
    | cons v0 rest =>
      rcases List.mem_cons.mp hvm with rfl | hvt
      · rw [List.headD_cons] at hne
        exact absurd rfl hne
      · refine ⟨v, by simpa using hvt, ?_⟩
        rw [cmdVersions_lookup _ _ _ _ (List.mem_cons_of_mem v0 hvt),
          cmdVersions_lookup _ _ _ _ (headD_mem hv)]
        exact bne_iff_ne.mpr hne

theorem mem_allCommandsD (get_help_files : String → List (String × String))
    (versions : List String) (cmd : String) :
    cmd ∈ allCommandsD get_help_files versions ↔
      ∃ v ∈ versions, cmd ∈ dictKeys (get_help_files v) := by
  rw [allCommandsD, mem_pyDedup, List.mem_flatMap]
  constructor
  · rintro ⟨files, hfiles, hcmd⟩
    rcases List.mem_map.mp hfiles with ⟨p, hp, rfl⟩
    rcases mem_dictOfList_keyed get_help_files versions p hp with ⟨hp1, hp2⟩
    exact ⟨p.1, hp1, hp2 ▸ hcmd⟩
  · rintro ⟨v, hvm, hcmd⟩
    refine ⟨get_help_files v, List.mem_map.mpr ⟨(v, get_help_files v), ?_, rfl⟩, hcmd⟩
    have : dictGet? (help_filesD get_help_files versions) v = some (get_help_files v) := by
      rw [help_filesD, dictGet?_dictOfList_keyed, if_pos hvm]
    exact dictGet?_mem this

/-- If every selected version identifier is the same string, nothing can
differ from the first version: the comparison result is empty. -/
theorem compare_versions_const (get_help_files : String → List (String × String))
    (versions : List String) (x : String) (hall : ∀ v ∈ versions, v = x) :
    compare_versions get_help_files versions = [] := by
  rw [compare_versions_eq]
  rw [show (List.insertionSort strLe (allCommandsD get_help_files versions)).filter
      (differsD get_help_files versions) = [] from ?_]
  · rfl
  · rw [List.filter_eq_nil_iff]
    intro cmd _
    rw [differsD]
    simp only [List.any_eq_true, not_exists]
    intro v hvt2
    obtain ⟨hvt, hb⟩ := hvt2
    have hvm : v ∈ versions := List.mem_of_mem_tail hvt
    have hvx : v = x := hall v hvm
    have hh : versions.headD "" = x := by
      cases versions with
      | nil => simp at hvt
      | cons v0 rest => rw [List.headD_cons]; exact hall v0 (List.mem_cons_self v0 rest)
    rw [hvx, hh] at hb
    simp at hb

theorem dictKeys_map_keyed {β : Type} (f : String → β) (l : List String) :
    dictKeys (l.map (fun c => (c, f c))) = l := by
  simp only [dictKeys, List.map_map]
  rw [show (Prod.fst ∘ fun c => (c, f c)) = id from rfl, List.map_id]

theorem contains_iff_mem (l : List String) (a : String) : l.contains a = true ↔ a ∈ l :=
  ⟨List.mem_of_elem_eq_true, List.elem_eq_true_of_mem⟩

theorem bne_comm_str (x y : String) : (x != y) = (y != x) := by
  by_cases h : x = y
  · subst h; rfl
  · rw [bne_iff_ne.mpr h, bne_iff_ne.mpr (Ne.symm h)]

/-! ## Claim C2 -/

/-- **C2**: for at least two selected versions and an entry name in the
union of the corpora's keys, the entry is a key of the `compare_versions`
result exactly when some selected version's text for it (empty string when
absent) differs from the first selected version's text. -/
theorem compare_versions_membership (get_help_files : String → List (String × String))
    (versions : List String) (cmd : String) (h2 : 2 ≤ versions.length)
    (hcmd : ∃ v ∈ versions, cmd ∈ dictKeys (get_help_files v)) :
    (dictKeys (compare_versions get_help_files versions)).contains cmd =
      versions.any (fun v => entryText get_help_files v cmd !=
        entryText get_help_files (versions.headD "") cmd) := by
  have hne : versions ≠ [] := by
    cases versions with
    | nil => simp at h2
    | cons v0 rest => simp
  rw [Bool.eq_iff_iff, contains_iff_mem, compare_versions_eq, dictKeys_map_keyed,
    List.mem_filter, List.any_eq_true]
  constructor
  · rintro ⟨_, hdif⟩
    rcases (differsD_iff get_help_files versions cmd hne).mp hdif with ⟨v, hvm, hvne⟩
    exact ⟨v, hvm, bne_iff_ne.mpr hvne⟩
  · rintro ⟨v, hvm, hvb⟩
    refine ⟨?_, (differsD_iff get_help_files versions cmd hne).mpr
      ⟨v, hvm, bne_iff_ne.mp hvb⟩⟩
    exact (List.perm_insertionSort strLe _).mem_iff.mpr
      ((mem_allCommandsD get_help_files versions cmd).mpr hcmd)

/-- Witness for C2 at a concrete input. -/
theorem compare_versions_membership_witness :
    (dictKeys (compare_versions corpusAB ["A", "B"])).contains "ALTER" =
      (["A", "B"] : List String).any (fun v => entryText corpusAB v "ALTER" !=
        entryText corpusAB ((["A", "B"] : List String).headD "") "ALTER") :=
  compare_versions_membership corpusAB ["A", "B"] "ALTER" (by decide)
    ⟨"B", by decide, by decide⟩

/-! ## Claim C3 (corrected) -/

/-- Counterexample to C3 as stated: with a single selected version,
`compare_versions` raises no error — it runs to completion and returns the
ordinary empty mapping. -/
theorem compare_versions_single_version_ordinary_result :
    compare_versions corpusAB ["A"] = [] := by decide

/-- **C3 (amended)**: `compare_versions` itself performs no arity check;
for fewer than 2 distinct selected versions it returns the ordinary empty
result.  The fewer-than-two rejection lives only in the `/compare` route
handler, which rejects selections of fewer than two versions with an error
message. -/
theorem compare_arity_check (get_help_files : String → List (String × String))
    (versions : List String) :
    ((pyDedup versions).length < 2 → compare_versions get_help_files versions = []) ∧
    (versions.length < 2 →
      compare get_help_files versions =
        Except.error "Please select at least two versions for comparison.") := by
  constructor
  · intro h
    cases hd : pyDedup versions with
    | nil =>
      cases hv : versions with
      | nil => rfl
      | cons v0 rest =>
        have : v0 ∈ pyDedup versions := (mem_pyDedup v0 versions).mpr (by rw [hv]; simp)
        rw [hd] at this
        simp at this
    | cons x xs =>
      have hxs : xs = [] := by
        rw [hd] at h
        simp at h
        exact List.eq_nil_of_length_eq_zero (by omega)
      refine compare_versions_const get_help_files versions x ?_
      intro v hvm
      have : v ∈ pyDedup versions := (mem_pyDedup v versions).mpr hvm
      rw [hd, hxs] at this
      simpa using this
  · intro h
    rw [compare, if_pos h]

/-- Witness for the amended C3. -/
theorem compare_arity_check_witness :
    compare_versions corpusAB ["B"] = [] ∧
    compare corpusAB ["B"] =
      Except.error "Please select at least two versions for comparison." :=
  ⟨(compare_arity_check corpusAB ["B"]).1 (by decide),
    (compare_arity_check corpusAB ["B"]).2 (by decide)⟩

/-! ## Claim C6 (corrected) -/

/-- Counterexample to C6 as literally stated: in the spec's §8 scenario the
absent entry is rendered as the annotation of the empty text, `"<pre></pre>"`,
not as the empty string `""`. -/
theorem compare_versions_scenario_absent_not_empty_string :
    dictGet? (dictGetD (compare_versions corpusAB ["A", "B"]) "ALTER" []) "A" =
      some "<pre></pre>" ∧ ("<pre></pre>" : String) ≠ "" := by
  constructor
  · decide
  · decide

/-- **C6 (amended)**: with corpora `A = {"ABORT": "x"}` and
`B = {"ABORT": "x", "ALTER": "y"}`, the result is exactly
`{"ALTER": {"A": <rendering of the empty text>, "B": <y as one added line>}}`
— the version missing the entry gets the empty string as its text, whose
rendering is `"<pre></pre>"`; `"ABORT"` is excluded. -/
theorem compare_versions_scenario_absent_entry :
    compare_versions corpusAB ["A", "B"] =
      [("ALTER",
        [("A", "<pre></pre>"),
         ("B", "<pre><span class=\"added\" style=\"background-color: #e6ffed;\">y</span></pre>")])] := by
  decide

/-! ## Claim C7 -/

/-- **C7**: reversing the two selected versions leaves the set of differing
entry names unchanged: an entry name is a key of `compare([A,B])`'s result
exactly when it is a key of `compare([B,A])`'s result. -/
theorem compare_versions_swap_same_keys (get_help_files : String → List (String × String))
    (a b cmd : String) :
    cmd ∈ dictKeys (compare_versions get_help_files [a, b]) ↔
      cmd ∈ dictKeys (compare_versions get_help_files [b, a]) := by
  have hperm : (allCommandsD get_help_files [a, b]).Perm (allCommandsD get_help_files [b, a]) := by
    rw [allCommandsD, allCommandsD]
    apply perm_pyDedup
    by_cases hab : a = b
    · subst hab
      exact List.Perm.refl _
    · have h1 : help_filesD get_help_files [a, b] =
          [(a, get_help_files a), (b, get_help_files b)] := by
        simp [help_filesD, dictOfList, dictSet, hab]
      have hba : ¬ b = a := fun h => hab h.symm
      have h2 : help_filesD get_help_files [b, a] =
          [(b, get_help_files b), (a, get_help_files a)] := by
        simp [help_filesD, dictOfList, dictSet, hba]
      rw [h1, h2]
      simp only [List.map_cons, List.map_nil, List.flatMap_cons, List.flatMap_nil,
        List.append_nil]
      exact List.perm_append_comm
  have hsorted : List.insertionSort strLe (allCommandsD get_help_files [a, b]) =
      List.insertionSort strLe (allCommandsD get_help_files [b, a]) := by
    refine List.eq_of_perm_of_sorted ?_ (List.sorted_insertionSort strLe _)
      (List.sorted_insertionSort strLe _)
    exact (List.perm_insertionSort strLe _).trans
      (hperm.trans (List.perm_insertionSort strLe _).symm)
  have hdif : differsD get_help_files [a, b] cmd = differsD get_help_files [b, a] cmd := by
    rw [differsD, differsD]
    have hta : ([a, b] : List String).tail = [b] := rfl
    have htb : ([b, a] : List String).tail = [a] := rfl
    rw [hta, htb]
    simp only [List.any_cons, List.any_nil, Bool.or_false]
    rw [show ([a, b] : List String).headD "" = a from rfl,
      show ([b, a] : List String).headD "" = b from rfl,
      cmdVersions_lookup get_help_files [a, b] cmd b (by simp),
      cmdVersions_lookup get_help_files [a, b] cmd a (by simp),
      cmdVersions_lookup get_help_files [b, a] cmd a (by simp),
      cmdVersions_lookup get_help_files [b, a] cmd b (by simp)]
    exact bne_comm_str _ _
  rw [compare_versions_eq, compare_versions_eq, dictKeys_map_keyed, dictKeys_map_keyed,
    List.mem_filter, List.mem_filter, hsorted, hdif]

/-! ## Claim C8 -/

/-- **C8**: comparing a version against itself — the same corpus selected
twice — yields a result with no entries. -/
theorem compare_versions_self_empty (get_help_files : String → List (String × String))
    (a : String) : compare_versions get_help_files [a, a] = [] := by
  refine compare_versions_const get_help_files [a, a] a ?_
  intro v hv
  rcases List.mem_cons.mp hv with rfl | hv2
  · rfl
  · simpa using hv2

/-! ## Claim C10 -/

/-- **C10**: the texts `"x"` and `"x\n"` are unequal as strings yet split
into the same line sequence, so the entry is included in the comparison
result while both renderings consist of one unchanged-tagged line — the
result contains an entry whose rendering shows no added or deleted line. -/
theorem trailing_newline_included_but_all_unchanged :
    ("x" : String) ≠ "x\n" ∧
    splitlines "x" = splitlines "x\n" ∧
    compare_versions corpusNL ["A", "B"] =
      [("E",
        [("A", "<pre><span class=\"unchanged\">x</span></pre>"),
         ("B", "<pre><span class=\"unchanged\">x</span></pre>")])] ∧
    containsSeq "deleted".data "<pre><span class=\"unchanged\">x</span></pre>".data = false ∧
    containsSeq "added".data "<pre><span class=\"unchanged\">x</span></pre>".data = false := by
  refine ⟨by decide, by decide, by decide, by decide, by decide⟩

/-! ## Claim C9 -/

theorem dictGet?_isSome_iff_mem_keys {β : Type} (d : List (String × β)) (k : String) :
    (dictGet? d k).isSome = true ↔ k ∈ dictKeys d := by
  induction d with
  | nil => simp [dictKeys, dictGet?]
  | cons p rest ih =>
    obtain ⟨k0, v0⟩ := p
    by_cases hk0 : k0 = k
    · subst hk0
      simp [dictKeys, dictGet?]
    · have hkk : ¬ k = k0 := fun h => hk0 h.symm
      have h1 : dictGet? ((k0, v0) :: rest) k = dictGet? rest k := by simp [dictGet?, hk0]
      have h2 : k ∈ dictKeys ((k0, v0) :: rest) ↔ k ∈ dictKeys rest := by
        simp [dictKeys, hkk]
      rw [h1, h2, ← ih]

theorem startswith_append_left (p s t : String) : startswith ((p ++ s) ++ t) p = true := by
  rw [startswith, data_append, data_append, List.append_assoc]
  exact isPrefixOf_append_self _ _

theorem endswith_append (x s : String) : endswith (x ++ s) s = true := by
  rw [endswith, data_append]
  simp only [List.isSuffixOf]
  rw [List.reverse_append]
  exact isPrefixOf_append_self _ _

theorem renderPair_shape (t1 t2 : String) :
    (startswith (renderPair t1 t2).1 "<pre>" && endswith (renderPair t1 t2).1 "</pre>") =
      true ∧
    (startswith (renderPair t1 t2).2 "<pre>" && endswith (renderPair t1 t2).2 "</pre>") =
      true := by
  rw [renderPair]
  constructor <;>
    simp [startswith_append_left, endswith_append]

theorem two_le_length_of_two_mem {l : List String} {x y : String} (hx : x ∈ l) (hy : y ∈ l)
    (hxy : x ≠ y) : 2 ≤ l.length := by
  cases l with
  | nil => simp at hx
  | cons a rest =>
    cases rest with
    | nil =>
      simp at hx hy
      exact absurd (hx.trans hy.symm) hxy
    | cons b r2 => simp [Nat.succ_le_succ, Nat.le_add_left]

theorem getD_mem_of_lt {l : List String} {i : Nat} (h : i < l.length) : l.getD i "" ∈ l := by
  rw [List.getD_eq_getElem l "" h]
  exact List.getElem_mem h

/-- For at least two versions, the pair loop writes a rendering for every
key of the input dict and nothing else. -/
theorem mem_keys_highlight_diff (cvs : List (String × String))
    (hn : 2 ≤ (dictKeys cvs).length) (k : String) :
    k ∈ dictKeys (highlight_diff cvs) ↔ k ∈ dictKeys cvs := by
  rw [highlight_diff_eq_foldl, mem_dictKeys_foldl_hlStep]
  constructor
  · rintro (h | ⟨p, hp, hk⟩)
    · simp [dictKeys] at h
    · obtain ⟨i, j⟩ := p
      obtain ⟨h1, h2⟩ := (mem_pairList _ _ _).mp hp
      rcases hk with rfl | rfl
      · exact getD_mem_of_lt (by omega)
      · exact getD_mem_of_lt h2
  · intro hk
    rcases List.mem_iff_getElem.mp hk with ⟨i, hi, hgi⟩
    refine Or.inr ?_
    by_cases hi0 : i = 0
    · subst hi0
      refine ⟨(0, 1), (mem_pairList _ _ _).mpr ⟨by omega, by omega⟩, Or.inl ?_⟩
      rw [List.getD_eq_getElem _ _ hi, hgi]
    · refine ⟨(0, i), (mem_pairList _ _ _).mpr ⟨by omega, by omega⟩, Or.inr ?_⟩
      rw [List.getD_eq_getElem _ _ hi, hgi]

/-- **C9**: every entry included in a `compare_versions` result maps every
selected version identifier to a rendered string; the per-entry mapping's
keys are exactly the selected versions, and every rendered value starts
with `"<pre>"` and ends with `"</pre>"`. -/
theorem compare_versions_entry_shape (get_help_files : String → List (String × String))
    (versions : List String) (cmd : String) (m : List (String × String))
    (h2 : 2 ≤ versions.length)
    (hm : (cmd, m) ∈ compare_versions get_help_files versions) :
    versions.all (fun v => (dictGet? m v).isSome) = true ∧
    (dictKeys m).all (fun v => versions.contains v) = true ∧
    m.all (fun p => startswith p.2 "<pre>" && endswith p.2 "</pre>") = true := by
  have hne : versions ≠ [] := by
    cases versions with
    | nil => simp at h2
    | cons v0 rest => simp
  rw [compare_versions_eq] at hm
  rcases List.mem_map.mp hm with ⟨c, hc, heq⟩
  injection heq with heq1 heq2
  subst heq1
  subst heq2
  rcases List.mem_filter.mp hc with ⟨hcs, hdif⟩
  rcases (differsD_iff get_help_files versions c hne).mp hdif with ⟨v, hvm, hvne⟩
  have hvh : v ≠ versions.headD "" := fun he => hvne (by rw [he])
  have hkeys : ∀ x, x ∈ dictKeys (cmdVersionsD get_help_files versions c) ↔ x ∈ versions := by
    intro x
    rw [cmdVersionsD]
    exact mem_keys_dictOfList_keyed _ versions x
  have hn2 : 2 ≤ (dictKeys (cmdVersionsD get_help_files versions c)).length :=
    two_le_length_of_two_mem ((hkeys v).mpr hvm) ((hkeys _).mpr (headD_mem hne)) hvh
  have hcover : ∀ x,
      x ∈ dictKeys (highlight_diff (cmdVersionsD get_help_files versions c)) ↔
        x ∈ versions :=
    fun x => (mem_keys_highlight_diff _ hn2 x).trans (hkeys x)
  refine ⟨?_, ?_, ?_⟩
  · rw [List.all_eq_true]
    intro w hw
    exact (dictGet?_isSome_iff_mem_keys _ _).mpr ((hcover w).mpr hw)
  · rw [List.all_eq_true]
    intro x hx
    exact (contains_iff_mem versions x).mpr ((hcover x).mp hx)
  · rw [List.all_eq_true]
    intro p hp
    rw [highlight_diff_eq_foldl] at hp
    refine value_shape_foldl_hlStep _
      (fun s => (startswith s "<pre>" && endswith s "</pre>") = true)
      (fun t1 t2 => renderPair_shape t1 t2) _ [] (by simp) p hp

/-- Witness for C9 at a concrete input. -/
theorem compare_versions_entry_shape_witness :
    (["A", "B"] : List String).all
      (fun v => (dictGet? ([("A", "<pre></pre>"),
        ("B", "<pre><span class=\"added\" style=\"background-color: #e6ffed;\">y</span></pre>")] :
          List (String × String)) v).isSome) = true ∧
    (dictKeys ([("A", "<pre></pre>"),
        ("B", "<pre><span class=\"added\" style=\"background-color: #e6ffed;\">y</span></pre>")] :
          List (String × String))).all (fun v => (["A", "B"] : List String).contains v) = true ∧
    ([("A", "<pre></pre>"),
      ("B", "<pre><span class=\"added\" style=\"background-color: #e6ffed;\">y</span></pre>")] :
        List (String × String)).all
      (fun p => startswith p.2 "<pre>" && endswith p.2 "</pre>") = true :=
  compare_versions_entry_shape corpusAB ["A", "B"] "ALTER"
    [("A", "<pre></pre>"),
     ("B", "<pre><span class=\"added\" style=\"background-color: #e6ffed;\">y</span></pre>")]
    (by decide) (by decide)

end PgHelp
